import Mathlib

/-!
Verification of the econf configuration store (src/core/econf/conf.go).

The Go values flowing through the store (`interface{}`) are modelled by the
closed type `Value` of scalars, sequences and string-keyed nested mappings;
Go's `map[string]interface{}` is modelled as an association list whose
operations (`alistLookup`, `alistStore`) mirror map read and map assign.
A cache entry holding Go `nil` is modelled as `Option.none` at the cache
level, so the resolved-key cache maps keys to `Option Value`.

External collaborators (the payload decoder, the mapstructure decoding and
the cast type-coercion library) are out of scope of the repository and are
modelled at their interface, as the specification prescribes; the two tree
helpers of the repository's own `core/util/xmap` package, whose source is
not part of the staged files, are modelled from the specification's words
and marked as such in their doc comments.
-/

namespace Econf

/-- A configuration value: a scalar, a sequence, or a nested mapping
(models the Go `interface{}` universe the store manipulates). -/
inductive Value where
  | vInt  (n : Int)
  | vStr  (s : String)
  | vBool (b : Bool)
  | vSeq  (xs : List Value)
  | vMap  (entries : List (String × Value))
deriving Repr

/-- A nested mapping, Go `map[string]interface{}`. -/
abbrev Tree := List (String × Value)

/-- Map read, Go `v, ok := m[k]` with the ok flag folded into `Option`. -/
def alistLookup {α : Type} : List (String × α) → String → Option α
  | [], _ => none
  | (k', v') :: rest, k => if k' = k then some v' else alistLookup rest k

/-- Map assign, Go `m[k] = v`: replaces the entry if the key is present,
otherwise adds it. -/
def alistStore {α : Type} : List (String × α) → String → α → List (String × α)
  | [], k, v => [(k, v)]
  | (k', v') :: rest, k, v =>
      if k' = k then (k, v) :: rest else (k', v') :: alistStore rest k v

mutual

/-- Structural equality of two values: models `reflect.DeepEqual` on the
modelled value universe. -/
def Value.beq : Value → Value → Bool
  | .vInt a, .vInt b => a == b
  | .vStr a, .vStr b => a == b
  | .vBool a, .vBool b => a == b
  | .vSeq a, .vSeq b => beqValueList a b
  | .vMap a, .vMap b => beqEntries a b
  | _, _ => false

/-- Structural equality of two value sequences. -/
def beqValueList : List Value → List Value → Bool
  | [], [] => true
  | x :: xs, y :: ys => Value.beq x y && beqValueList xs ys
  | _, _ => false

/-- Structural equality of two nested mappings (as entry lists). -/
def beqEntries : List (String × Value) → List (String × Value) → Bool
  | [], [] => true
  | (k1, v1) :: xs, (k2, v2) :: ys => k1 == k2 && Value.beq v1 v2 && beqEntries xs ys
  | _, _ => false

end

/-- Models `reflect.DeepEqual(orig, v)` in `apply`, where `orig` is the
cached entry (an `interface{}` that may be Go `nil`, hence `Option`) and
`v` the freshly flattened value (never nil in the modelled universe). -/
def deepEqual (orig : Option Value) (v : Value) : Bool :=
  match orig with
  | some w => Value.beq w v
  | none => false

mutual

/-- Well-formedness of a value: every nested mapping in it has pairwise
distinct keys, as any mapping decoded from a Go map does. -/
def wfValue : Value → Bool
  | .vMap t => wfTree t
  | .vSeq xs => wfValueList xs
  | _ => true

/-- Well-formedness of each value of a sequence. -/
def wfValueList : List Value → Bool
  | [] => true
  | x :: xs => wfValue x && wfValueList xs

/-- Well-formedness of a nested mapping: keys are pairwise distinct at this
level and every nested value is well-formed. -/
def wfTree : Tree → Bool
  | [] => true
  | (k, v) :: rest => !(rest.any (fun p => p.1 == k)) && wfValue v && wfTree rest

end

/-- Go `strings.HasPrefix(s, pre)`: byte-level, equivalently character-level,
test that `pre` starts `s`. -/
def hasPrefix (s pre : String) : Bool :=
  pre.toList.isPrefixOf s.toList

/-- Splitting a character list around each non-overlapping instance of `sep`,
left to right; the fuel is an upper bound on the number of steps (each step
consumes at least one character, so the initial list's length suffices). -/
def splitCharsAux (sep : List Char) : Nat → List Char → List Char → List (List Char)
  | _, [], acc => [acc.reverse]
  | 0, _, acc => [acc.reverse]
  | fuel + 1, c :: rest, acc =>
      if sep.isPrefixOf (c :: rest) then
        acc.reverse :: splitCharsAux sep fuel (rest.drop (sep.length - 1)) []
      else
        splitCharsAux sep fuel rest (c :: acc)

/-- Go `strings.Split(s, sep)`: splits around each non-overlapping instance
of `sep`; for an empty separator, splits into the individual characters. -/
def stringsSplit (s sep : String) : List String :=
  if sep = "" then s.toList.map (fun c => String.mk [c])
  else (splitCharsAux sep.toList s.toList.length s.toList []).map String.mk

mutual

/-- Models `xmap.MergeStringMap(dest, src)` (repository code under
core/util/xmap, not among the staged source files). Modelled from the spec:
the result is the deep union of both trees; for every key present in the
new mapping, if both sides hold a nested mapping the merge recurses,
otherwise the new value replaces the old. Iterates over the entries of
`src`, folding each into `dest`. -/
def mergeTree : Tree → Tree → Tree
  | dest, [] => dest
  | dest, (k, v) :: rest => mergeTree (mergeStep dest k v) rest

/-- One key of the merge: Go's per-key body of the merge loop. -/
def mergeStep (dest : Tree) (k : String) : Value → Tree
  | .vMap s =>
      match alistLookup dest k with
      | some (.vMap d) => alistStore dest k (.vMap (mergeTree d s))
      | some _ => alistStore dest k (.vMap s)
      | none => dest ++ [(k, .vMap s)]
  | v =>
      match alistLookup dest k with
      | some _ => alistStore dest k v
      | none => dest ++ [(k, v)]

end

/-- Models `xmap.DeepSearchInMap(m, paths...)` (repository code under
core/util/xmap, not among the staged source files). Modelled from the spec:
the tree is walked using the given path segments; an absent or
non-mapping step yields an empty result, so the leaf read that follows
yields nil for an absent path. Read-only: does not vivify the tree. -/
def DeepSearchInMap : Tree → List String → Tree
  | m, [] => m
  | m, k :: rest =>
      match alistLookup m k with
      | some (.vMap m2) => DeepSearchInMap m2 rest
      | _ => DeepSearchInMap [] rest

mutual

/-- Go `lookup(prefix, target, data, sep)` (conf.go:404): walks the entries
of `target`; a nested mapping recurses with the joined dotted path, any
other value is stored into `data` under its dotted key. The conversion
test `cast.ToStringMapE` of the source succeeds exactly on the modelled
nested mappings. -/
def lookupFlat (sep : String) : String → Tree → Tree → Tree
  | _, [], data => data
  | pre, (k, v) :: rest, data =>
      let pp := if pre == "" then k else pre ++ sep ++ k
      lookupFlat sep pre rest (lookupEntry sep pp v data)

/-- One entry of the flattening walk: recurse into a nested mapping, store
a leaf. -/
def lookupEntry (sep pp : String) : Value → Tree → Tree
  | .vMap dd, data => lookupFlat sep pp dd data
  | v, data => alistStore data pp v

end

/-- Go `(c) traverse(sep)` (conf.go:418): flattens the whole override tree
into a dotted-key-to-leaf mapping. -/
def traverse (override : Tree) (sep : String) : Tree :=
  lookupFlat sep "" override []

/-- The Configuration aggregate (conf.go:24). Callbacks are opaque to the
model and represented by identifiers (`Nat`); `keyMap` is the resolved-key
cache, with `Option.none` modelling a cached Go `nil`; `rawConfig` is the
raw payload byte slice. -/
structure Configuration where
  override : Tree
  keyDelim : String
  rawConfig : List Nat
  keyMap : List (String × Option Value)
  onChanges : List Nat
  watchers : List (String × List Nat)
deriving Repr

/-- Go `New()` (conf.go:40): the empty configuration with the default key
delimiter. -/
def New : Configuration :=
  { override := []
    keyDelim := "."
    rawConfig := []
    keyMap := []
    onChanges := []
    watchers := [] }

/-- Go `OnChange` (conf.go:71): appends a global-change callback. -/
def OnChange (c : Configuration) (fn : Nat) : Configuration :=
  { c with onChanges := c.onChanges ++ [fn] }

/-- Modelled from the spec: `Watch(prefix, callback)` stores the callback
under the watched key prefix (the registration function itself is not among
the staged source files; only the `watchers` field and its use in
`notifyChanges` are). -/
def Watch (c : Configuration) (wp : String) (fn : Nat) : Configuration :=
  { c with watchers := alistStore c.watchers wp ((alistLookup c.watchers wp).getD [] ++ [fn]) }

/-- First phase of `notifyChanges` (conf.go:157): the set of registered
watch prefixes for which some changed key passes the plain string-prefix
test. -/
def changedWatchPlist (watchers : List (String × List Nat)) (changes : Tree) : List String :=
  (watchers.map Prod.fst).filter (fun wp => changes.any (fun kv => hasPrefix kv.1 wp))

/-- Go `notifyChanges` (conf.go:156): every callback registered under a
prefix that matched some changed key is dispatched (each `go handle(c)` of
the source is recorded as the callback's identifier). The global `onChanges`
list is not consulted here. -/
def notifyChanges (watchers : List (String × List Nat)) (changes : Tree) : List Nat :=
  ((changedWatchPlist watchers changes).map
    (fun wp => (alistLookup watchers wp).getD [])).flatten

/-- The loop body of `apply` (conf.go:141): for each flattened pair, a
cached previous entry that is not deeply equal records the key in the
change set, and the cache entry is overwritten unconditionally. -/
def applyFold : Tree → List (String × Option Value) → Tree →
    List (String × Option Value) × Tree
  | [], km, ch => (km, ch)
  | (k, v) :: rest, km, ch =>
      let ch' := match alistLookup km k with
        | some orig => if !(deepEqual orig v) then alistStore ch k v else ch
        | none => ch
      applyFold rest (alistStore km k (some v)) ch'

/-- The outcome of one merge generation: the updated configuration, the
change set of this generation, and the callbacks dispatched for it. -/
structure ApplyResult where
  config : Configuration
  changes : Tree
  dispatched : List Nat
deriving Repr

/-- Go `(c) apply(conf)` (conf.go:134): merge the decoded mapping into the
tree, flatten, diff against the cache (updating it), and dispatch the watch
callbacks when at least one change exists. -/
def apply (c : Configuration) (conf : Tree) : ApplyResult :=
  let override := mergeTree c.override conf
  let flat := traverse override c.keyDelim
  let km := applyFold flat c.keyMap []
  let changes := km.2
  let dispatched := if changes.length > 0 then notifyChanges c.watchers changes else []
  { config := { c with override := override, keyMap := km.1 }
    changes := changes
    dispatched := dispatched }

/-- Go `deepSearch(m, path)` (conf.go:186) fused with the leaf assignment
`m[lastKey] = val` of `Set` (conf.go:181): walks and creates intermediate
nested mappings (an absent or non-mapping intermediate is replaced by an
empty mapping) and assigns the leaf. In Go, `deepSearch` mutates the maps in
place and returns the innermost one; this pure form returns the whole
updated tree, and the innermost mapping is recovered from it by walking the
same path (`DeepSearchInMap`). -/
def deepSearchAssign (m : Tree) (path : List String) (lastKey : String) (val : Value) : Tree :=
  match path with
  | [] => alistStore m lastKey val
  | k :: rest =>
      let sub := match alistLookup m k with
        | some (.vMap m2) => m2
        | _ => []
      alistStore m k (.vMap (deepSearchAssign sub rest lastKey val))

/-- Go `(c) Set(key, val)` (conf.go:177): split the dotted key, walk/create
the intermediate mappings, assign the leaf, then feed the innermost mapping
`m` (the leaf's parent, as `deepSearch` returns it) through `apply`. -/
def setKey (c : Configuration) (key : String) (val : Value) : ApplyResult :=
  let paths := stringsSplit key c.keyDelim
  let lastKey := paths.getLastD ""
  let override := deepSearchAssign c.override paths.dropLast lastKey val
  let m := DeepSearchInMap override paths.dropLast
  apply { c with override := override } m

/-- Go `(c) Load(content, unmarshal)` (conf.go:116): stores the raw payload,
then decodes it (the decoder is an external collaborator, passed as a
function to bytes); a decode error is returned with no merge, otherwise the
decoded mapping goes through `apply`. -/
def Load (c : Configuration) (content : List Nat)
    (unmarshal : List Nat → Except String Tree) :
    ApplyResult × Option String :=
  let c1 := { c with rawConfig := content }
  match unmarshal content with
  | .error e => ({ config := c1, changes := [], dispatched := [] }, some e)
  | .ok conf => (apply c1 conf, none)

/-- Go `(c) raw()` (conf.go:424): the stored raw payload. -/
def raw (c : Configuration) : List Nat :=
  c.rawConfig

/-- Go `(c) find(key)` (conf.go:389): a cache hit is returned
unconditionally (even a cached nil); on a miss, the key is split by the
delimiter, the tree is walked with all segments but the last, the leaf is
read (absent yields nil), and the result is stored in the cache. Returns
the configuration (whose cache the miss path updates) with the result. -/
def find (c : Configuration) (key : String) : Configuration × Option Value :=
  match alistLookup c.keyMap key with
  | some dd => (c, dd)
  | none =>
      let paths := stringsSplit key c.keyDelim
      let m := DeepSearchInMap c.override paths.dropLast
      let dd := alistLookup m (paths.getLastD "")
      ({ c with keyMap := alistStore c.keyMap key dd }, dd)

/-- Go `(c) Get(key)` (conf.go:206). -/
def Get (c : Configuration) (key : String) : Configuration × Option Value :=
  find c key

/-- Models the external `cast.ToInt` collaborator at its interface (spec
section 4.6): best-effort conversion where an absent (nil) or unconvertible
value yields the zero value 0. -/
def castToInt : Option Value → Int
  | some (.vInt n) => n
  | some (.vBool b) => if b then 1 else 0
  | some (.vStr s) => (s.toInt?).getD 0
  | _ => 0

/-- Go `(c) GetInt(key)` (conf.go:236): `cast.ToInt(c.Get(key))`. -/
def GetInt (c : Configuration) (key : String) : Configuration × Int :=
  let r := Get c key
  (r.1, castToInt r.2)

/-- An `UnmarshalKey` failure: the invalid-key error (wrapping
`ErrInvalidKey`, conf.go:355) or an error of the external structure
decoder. -/
inductive UnmarshalErr where
  | invalidKey (key : String)
  | decodeErr (msg : String)
deriving Repr, DecidableEq

/-- Go `(c) UnmarshalKey(key, rawVal, opts...)` (conf.go:358). The external
mapstructure decoder is modelled at its interface by the two function
arguments (for a value and for the whole tree), each returning the possibly
rewritten target and an optional failure message. An empty key decodes the
entire tree; otherwise the key is resolved through `Get`, a nil result
yields the invalid-key error with the target untouched, and any other
result is handed to the decoder. -/
def UnmarshalKey {T : Type} (c : Configuration) (key : String) (rawVal : T)
    (decodeValue : Value → T → T × Option String)
    (decodeTree : Tree → T → T × Option String) :
    Configuration × T × Option UnmarshalErr :=
  if key = "" then
    match decodeTree c.override rawVal with
    | (t', none) => (c, t', none)
    | (t', some m) => (c, t', some (.decodeErr m))
  else
    let r := Get c key
    match r.2 with
    | none => (r.1, rawVal, some (.invalidKey key))
    | some v =>
        match decodeValue v rawVal with
        | (t', none) => (r.1, t', none)
        | (t', some m) => (r.1, t', some (.decodeErr m))

/-- Abbreviation used by the merge lemmas: the value a merged key ends up
holding, given the old entry (if any) and the incoming value. -/
def mergeValueO : Option Value → Value → Value
  | some (.vMap d), .vMap s => .vMap (mergeTree d s)
  | _, v => v

/-- The tree walk of find's cache-miss path, named for the statements: the
key is split by the delimiter, the tree walked with all segments but the
last, and the leaf read (absent yields nil). -/
def treeResolve (c : Configuration) (key : String) : Option Value :=
  alistLookup (DeepSearchInMap c.override (stringsSplit key c.keyDelim).dropLast)
    ((stringsSplit key c.keyDelim).getLastD "")

/-- C1 scenario: the configuration after loading the mapping a to 1. -/
def confA : Configuration := (apply New [("a", Value.vInt 1)]).config

/-- C1 scenario: the same configuration with a global-change callback
(identifier 7) registered through OnChange. -/
def confA7 : Configuration := OnChange confA 7

/-- C1 scenario: the generation produced by the first Set of a to 2. -/
def setOnce : ApplyResult := setKey confA7 "a" (Value.vInt 2)

/-- C1 scenario: the generation produced by repeating the identical Set. -/
def setTwice : ApplyResult := setKey setOnce.config "a" (Value.vInt 2)

/-- C9 scenario: a configuration whose tree holds the single key a. -/
def c9conf : Configuration := { New with override := [("a", Value.vInt 1)] }

/-- C9 scenario: a value decoder that leaves the integer target alone. -/
def c9decodeValue : Value → Int → Int × Option String := fun _ t => (t, none)

/-- C9 scenario: a whole-tree decoder that rewrites the integer target,
observable when the empty-key branch hands it the entire tree. -/
def c9decodeTree : Tree → Int → Int × Option String := fun _ t => (t + 1, none)

/-! ## Association list lemmas -/

theorem alistLookup_store_self {α : Type} (d : List (String × α)) (k : String) (v : α) :
    alistLookup (alistStore d k v) k = some v := by
  induction d with
  | nil => simp [alistStore, alistLookup]
  | cons p rest ih =>
      obtain ⟨k', v'⟩ := p
      by_cases hk : k' = k
      · subst hk; simp [alistStore, alistLookup]
      · simp [alistStore, alistLookup, hk, ih]

theorem alistLookup_store_ne {α : Type} (d : List (String × α)) (ks k : String) (v : α)
    (h : ks ≠ k) : alistLookup (alistStore d ks v) k = alistLookup d k := by
  induction d with
  | nil => simp [alistStore, alistLookup, h]
  | cons p rest ih =>
      obtain ⟨k', v'⟩ := p
      by_cases hk : k' = ks
      · subst hk; simp [alistStore, alistLookup, h]
      · simp [alistStore, alistLookup, hk, ih]

theorem alistStore_of_lookup {α : Type} (d : List (String × α)) (k : String) (w : α)
    (h : alistLookup d k = some w) : alistStore d k w = d := by
  induction d with
  | nil => simp [alistLookup] at h
  | cons p rest ih =>
      obtain ⟨k', v'⟩ := p
      by_cases hk : k' = k
      · subst hk
        simp [alistLookup] at h
        subst h
        simp [alistStore]
      · simp only [alistLookup, if_neg hk] at h
        simp [alistStore, hk, ih h]

theorem alistLookup_append_ne {α : Type} (d : List (String × α)) (ks k : String) (v : α)
    (h : ks ≠ k) : alistLookup (d ++ [(ks, v)]) k = alistLookup d k := by
  induction d with
  | nil => simp [alistLookup, h]
  | cons p rest ih =>
      obtain ⟨k', v'⟩ := p
      by_cases hk : k' = k
      · simp [alistLookup, hk]
      · simp [alistLookup, hk, ih]

theorem alistLookup_append_self {α : Type} (d : List (String × α)) (k : String) (v : α)
    (h : alistLookup d k = none) : alistLookup (d ++ [(k, v)]) k = some v := by
  induction d with
  | nil => simp [alistLookup]
  | cons p rest ih =>
      obtain ⟨k', v'⟩ := p
      by_cases hk : k' = k
      · simp [alistLookup, hk] at h
      · simp only [alistLookup, if_neg hk] at h
        simp [alistLookup, hk, ih h]

theorem alistLookup_none_iff {α : Type} (d : List (String × α)) (k : String) :
    alistLookup d k = none ↔ k ∉ d.map Prod.fst := by
  induction d with
  | nil => simp [alistLookup]
  | cons p rest ih =>
      obtain ⟨k', v'⟩ := p
      by_cases hk : k' = k
      · subst hk; simp [alistLookup]
      · simp [alistLookup, hk, ih, Ne.symm hk]

theorem alistStore_keys {α : Type} (d : List (String × α)) (k : String) (v : α) :
    (alistStore d k v).map Prod.fst =
      if (alistLookup d k).isSome then d.map Prod.fst else d.map Prod.fst ++ [k] := by
  induction d with
  | nil => simp [alistStore, alistLookup]
  | cons p rest ih =>
      obtain ⟨k', v'⟩ := p
      by_cases hk : k' = k
      · subst hk; simp [alistStore, alistLookup]
      · simp only [alistStore, if_neg hk, List.map_cons, ih, alistLookup]
        by_cases hs : (alistLookup rest k).isSome <;> simp [hs]

theorem alistStore_keys_nodup {α : Type} (d : List (String × α)) (k : String) (v : α)
    (h : (d.map Prod.fst).Nodup) : ((alistStore d k v).map Prod.fst).Nodup := by
  rw [alistStore_keys]
  by_cases hs : (alistLookup d k).isSome
  · simpa [hs] using h
  · have hk : k ∉ d.map Prod.fst := by
      rw [← alistLookup_none_iff]
      exact Option.not_isSome_iff_eq_none.mp hs
    rw [if_neg hs, List.nodup_append]
    refine ⟨h, List.nodup_singleton k, ?_⟩
    intro a ha hb
    rw [List.mem_singleton] at hb
    subst hb
    exact hk ha

theorem alistLookup_of_mem {α : Type} (d : List (String × α)) (k : String) (v : α)
    (hnd : (d.map Prod.fst).Nodup) (h : (k, v) ∈ d) : alistLookup d k = some v := by
  induction d with
  | nil => simp at h
  | cons p rest ih =>
      obtain ⟨k', v'⟩ := p
      simp only [List.map_cons, List.nodup_cons] at hnd
      rcases List.mem_cons.mp h with h | h
      · obtain ⟨rfl, rfl⟩ := Prod.mk.injEq .. ▸ h
        · simp [alistLookup]
      · by_cases hk : k' = k
        · subst hk
          exact absurd (List.mem_map.mpr ⟨(k', v), h, rfl⟩) hnd.1
        · simp [alistLookup, hk, ih hnd.2 h]

/-! ## Deep-equality lemmas -/

mutual

theorem Value.beq_refl : ∀ (v : Value), Value.beq v v = true
  | .vInt a => by simp [Value.beq]
  | .vStr a => by simp [Value.beq]
  | .vBool a => by simp [Value.beq]
  | .vSeq xs => by simpa [Value.beq] using beqValueList_refl xs
  | .vMap t => by simpa [Value.beq] using beqEntries_refl t

theorem beqValueList_refl : ∀ (xs : List Value), beqValueList xs xs = true
  | [] => rfl
  | x :: xs => by simp [beqValueList, Value.beq_refl x, beqValueList_refl xs]

theorem beqEntries_refl : ∀ (t : List (String × Value)), beqEntries t t = true
  | [] => rfl
  | (k, v) :: rest => by simp [beqEntries, Value.beq_refl v, beqEntries_refl rest]

end

theorem deepEqual_refl (v : Value) : deepEqual (some v) v = true := by
  simp [deepEqual, Value.beq_refl]

/-! ## Projections of one merge generation -/

theorem apply_override (c : Configuration) (conf : Tree) :
    (apply c conf).config.override = mergeTree c.override conf := rfl

theorem apply_keyMap (c : Configuration) (conf : Tree) :
    (apply c conf).config.keyMap =
      (applyFold (traverse (mergeTree c.override conf) c.keyDelim) c.keyMap []).1 := rfl

theorem apply_changes_eq (c : Configuration) (conf : Tree) :
    (apply c conf).changes =
      (applyFold (traverse (mergeTree c.override conf) c.keyDelim) c.keyMap []).2 := rfl

theorem apply_dispatched_eq (c : Configuration) (conf : Tree) :
    (apply c conf).dispatched =
      if (apply c conf).changes.length > 0 then notifyChanges c.watchers (apply c conf).changes
      else [] := rfl

theorem apply_keyDelim (c : Configuration) (conf : Tree) :
    (apply c conf).config.keyDelim = c.keyDelim := rfl

theorem apply_watchers (c : Configuration) (conf : Tree) :
    (apply c conf).config.watchers = c.watchers := rfl

/-! ## Merge lemmas -/

theorem mergeTree_nil (dest : Tree) : mergeTree dest [] = dest := rfl

theorem mergeTree_cons (dest : Tree) (k : String) (v : Value) (rest : Tree) :
    mergeTree dest ((k, v) :: rest) = mergeTree (mergeStep dest k v) rest := rfl

theorem mergeStep_absent (dest : Tree) (k : String) (v : Value)
    (h : alistLookup dest k = none) : mergeStep dest k v = dest ++ [(k, v)] := by
  cases v <;> simp [mergeStep, h]

theorem mergeStep_present (dest : Tree) (k : String) (v w : Value)
    (h : alistLookup dest k = some w) :
    mergeStep dest k v = alistStore dest k (mergeValueO (some w) v) := by
  cases v <;> cases w <;> simp [mergeStep, mergeValueO, h]

theorem mergeValueO_none (v : Value) : mergeValueO none v = v := by
  cases v <;> simp [mergeValueO]

theorem alistLookup_mergeStep_self (dest : Tree) (k : String) (v : Value) :
    alistLookup (mergeStep dest k v) k = some (mergeValueO (alistLookup dest k) v) := by
  rcases h : alistLookup dest k with _ | w
  · rw [mergeStep_absent dest k v h, alistLookup_append_self dest k v h, mergeValueO_none]
  · rw [mergeStep_present dest k v w h, alistLookup_store_self]

theorem alistLookup_mergeStep_ne (dest : Tree) (ks k : String) (v : Value) (hne : ks ≠ k) :
    alistLookup (mergeStep dest ks v) k = alistLookup dest k := by
  rcases h : alistLookup dest ks with _ | w
  · rw [mergeStep_absent dest ks v h, alistLookup_append_ne dest ks k v hne]
  · rw [mergeStep_present dest ks v w h, alistLookup_store_ne dest ks k _ hne]

theorem alistLookup_mergeTree_notmem (src : Tree) (dest : Tree) (k : String)
    (h : k ∉ src.map Prod.fst) : alistLookup (mergeTree dest src) k = alistLookup dest k := by
  induction src generalizing dest with
  | nil => rfl
  | cons p rest ih =>
      obtain ⟨k₀, v₀⟩ := p
      simp only [List.map_cons, List.mem_cons] at h
      push_neg at h
      rw [mergeTree_cons, ih _ h.2, alistLookup_mergeStep_ne _ _ _ _ (fun e => h.1 e.symm)]

theorem mergeStep_cons_out (k ks : String) (v vs : Value) (d : Tree) (hne : ks ≠ k) :
    mergeStep ((k, v) :: d) ks vs = (k, v) :: mergeStep d ks vs := by
  have hkne : k ≠ ks := Ne.symm hne
  have hl : alistLookup ((k, v) :: d) ks = alistLookup d ks := by
    simp [alistLookup, hkne]
  rcases h : alistLookup d ks with _ | w
  · rw [mergeStep_absent _ _ _ (hl.trans h), mergeStep_absent _ _ _ h]
    simp
  · rw [mergeStep_present _ _ _ _ (hl.trans h), mergeStep_present _ _ _ _ h]
    simp [alistStore, hkne]

theorem mergeTree_cons_dest (src : Tree) (k : String) (v : Value) (d : Tree)
    (h : k ∉ src.map Prod.fst) : mergeTree ((k, v) :: d) src = (k, v) :: mergeTree d src := by
  induction src generalizing d with
  | nil => rfl
  | cons p rest ih =>
      obtain ⟨k₀, v₀⟩ := p
      simp only [List.map_cons, List.mem_cons] at h
      push_neg at h
      rw [mergeTree_cons, mergeStep_cons_out _ _ _ _ _ (fun e => h.1 e.symm), ih _ h.2,
        mergeTree_cons]

/-! ## Well-formedness lemmas -/

theorem wfTree_cons_iff (k : String) (v : Value) (r : Tree) :
    wfTree ((k, v) :: r) = true ↔
      k ∉ r.map Prod.fst ∧ wfValue v = true ∧ wfTree r = true := by
  simp only [wfTree, Bool.and_eq_true, Bool.not_eq_true', List.any_eq_false]
  constructor
  · rintro ⟨⟨hall, hv⟩, hr⟩
    refine ⟨fun hmem => ?_, hv, hr⟩
    obtain ⟨p, hp, hpk⟩ := List.mem_map.mp hmem
    exact hall p hp (by rw [hpk]; simp)
  · rintro ⟨hmem, hv, hr⟩
    refine ⟨⟨fun p hp hbeq => ?_, hv⟩, hr⟩
    exact hmem (List.mem_map.mpr ⟨p, hp, by simpa using hbeq⟩)

theorem wfValue_vMap (t : Tree) : wfValue (Value.vMap t) = wfTree t := rfl

/-! ## Merge idempotence -/

theorem sizeOf_head_val_lt (k : String) (v : Value) (r : Tree) :
    sizeOf v < sizeOf ((k, v) :: r) := by
  simp only [List.cons.sizeOf_spec, Prod.mk.sizeOf_spec]
  omega

theorem sizeOf_tail_lt (p : String × Value) (r : Tree) : sizeOf r < sizeOf (p :: r) := by
  simp only [List.cons.sizeOf_spec]
  omega

theorem sizeOf_entries_lt (s : Tree) : sizeOf s < sizeOf (Value.vMap s) := by
  simp only [Value.vMap.sizeOf_spec]
  omega

theorem mergeValueO_nonmap (o : Option Value) (v : Value) (h : ∀ s, v ≠ Value.vMap s) :
    mergeValueO o v = v := by
  rcases o with _ | w
  · exact mergeValueO_none v
  · cases w <;> cases v <;> first
      | rfl
      | exact absurd rfl (h _)

theorem mergeIdemPack : ∀ n : Nat,
    (∀ v : Value, sizeOf v ≤ n → wfValue v = true →
      (∀ o : Option Value, mergeValueO (some (mergeValueO o v)) v = mergeValueO o v) ∧
        mergeValueO (some v) v = v) ∧
    (∀ m : Tree, sizeOf m ≤ n → wfTree m = true →
      (∀ t : Tree, mergeTree (mergeTree t m) m = mergeTree t m) ∧ mergeTree m m = m) := by
  intro n
  induction n using Nat.strong_induction_on with
  | _ n ih =>
    have hnm : ∀ (w : Value), (∀ s, w ≠ Value.vMap s) →
        (∀ o, mergeValueO (some (mergeValueO o w)) w = mergeValueO o w) ∧
          mergeValueO (some w) w = w := fun w h =>
      ⟨fun o => (mergeValueO_nonmap _ _ h).trans (mergeValueO_nonmap o _ h).symm,
        mergeValueO_nonmap _ _ h⟩
    constructor
    · intro v hsz hwf
      match v with
      | .vInt a => exact hnm _ (by intro s e; cases e)
      | .vStr a => exact hnm _ (by intro s e; cases e)
      | .vBool a => exact hnm _ (by intro s e; cases e)
      | .vSeq xs => exact hnm _ (by intro s e; cases e)
      | .vMap s =>
          have hwfs : wfTree s = true := by rwa [wfValue_vMap] at hwf
          have hlt : sizeOf s < n := lt_of_lt_of_le (sizeOf_entries_lt s) hsz
          have Qs := (ih (sizeOf s) hlt).2 s le_rfl hwfs
          refine ⟨fun o => ?_, ?_⟩
          · rcases o with _ | w
            · rw [mergeValueO_none]
              show Value.vMap (mergeTree s s) = Value.vMap s
              rw [Qs.2]
            · cases w with
              | vMap d =>
                  show Value.vMap (mergeTree (mergeTree d s) s) = Value.vMap (mergeTree d s)
                  rw [Qs.1 d]
              | vInt a =>
                  show Value.vMap (mergeTree s s) = Value.vMap s
                  rw [Qs.2]
              | vStr a =>
                  show Value.vMap (mergeTree s s) = Value.vMap s
                  rw [Qs.2]
              | vBool a =>
                  show Value.vMap (mergeTree s s) = Value.vMap s
                  rw [Qs.2]
              | vSeq xs =>
                  show Value.vMap (mergeTree s s) = Value.vMap s
                  rw [Qs.2]
          · show Value.vMap (mergeTree s s) = Value.vMap s
            rw [Qs.2]
    · intro m hsz hwf
      match m with
      | [] => exact ⟨fun t => rfl, rfl⟩
      | (k, v) :: r =>
          obtain ⟨hk, hv, hr⟩ := (wfTree_cons_iff k v r).mp hwf
          have hltv : sizeOf v < n := lt_of_lt_of_le (sizeOf_head_val_lt k v r) hsz
          have hltr : sizeOf r < n := lt_of_lt_of_le (sizeOf_tail_lt (k, v) r) hsz
          have Pv := (ih (sizeOf v) hltv).1 v le_rfl hv
          have Qr := (ih (sizeOf r) hltr).2 r le_rfl hr
          constructor
          · intro t
            have hT₁ : alistLookup (mergeTree (mergeStep t k v) r) k
                = some (mergeValueO (alistLookup t k) v) := by
              rw [alistLookup_mergeTree_notmem r _ k hk, alistLookup_mergeStep_self]
            have hms : mergeStep (mergeTree (mergeStep t k v) r) k v
                = mergeTree (mergeStep t k v) r := by
              rw [mergeStep_present _ _ _ _ hT₁, Pv.1 (alistLookup t k),
                alistStore_of_lookup _ _ _ hT₁]
            rw [mergeTree_cons t k v r, mergeTree_cons _ k v r, hms, Qr.1 (mergeStep t k v)]
          · have hlm : alistLookup ((k, v) :: r) k = some v := by simp [alistLookup]
            have hms : mergeStep ((k, v) :: r) k v = (k, v) :: r := by
              rw [mergeStep_present _ _ _ _ hlm, Pv.2, alistStore_of_lookup _ _ _ hlm]
            rw [mergeTree_cons _ k v r, hms, mergeTree_cons_dest r k v r hk, Qr.2]

theorem mergeTree_idem (m : Tree) (hm : wfTree m = true) (t : Tree) :
    mergeTree (mergeTree t m) m = mergeTree t m :=
  ((mergeIdemPack (sizeOf m)).2 m le_rfl hm).1 t

/-! ## Flattening produces pairwise distinct keys -/

mutual

theorem lookupFlat_keys_nodup : ∀ (sep pre : String) (t : Tree) (data : Tree),
    (data.map Prod.fst).Nodup → ((lookupFlat sep pre t data).map Prod.fst).Nodup
  | _, _, [], _ => fun h => h
  | sep, pre, (k, v) :: rest, data => fun h =>
      lookupFlat_keys_nodup sep pre rest _
        (lookupEntry_keys_nodup sep (if pre == "" then k else pre ++ sep ++ k) v data h)

theorem lookupEntry_keys_nodup : ∀ (sep pp : String) (v : Value) (data : Tree),
    (data.map Prod.fst).Nodup → ((lookupEntry sep pp v data).map Prod.fst).Nodup
  | sep, pp, .vMap dd, data => fun h => lookupFlat_keys_nodup sep pp dd data h
  | _, pp, .vInt _, data => fun h => alistStore_keys_nodup data pp _ h
  | _, pp, .vStr _, data => fun h => alistStore_keys_nodup data pp _ h
  | _, pp, .vBool _, data => fun h => alistStore_keys_nodup data pp _ h
  | _, pp, .vSeq _, data => fun h => alistStore_keys_nodup data pp _ h

end

theorem traverse_keys_nodup (t : Tree) (sep : String) :
    ((traverse t sep).map Prod.fst).Nodup :=
  lookupFlat_keys_nodup sep "" t [] (by simp)

/-! ## Cache update and change detection (the loop of apply) -/

theorem applyFold_step (k₀ : String) (v₀ : Value) (rest : Tree)
    (km : List (String × Option Value)) (ch : Tree) :
    applyFold ((k₀, v₀) :: rest) km ch
      = applyFold rest (alistStore km k₀ (some v₀))
          (match alistLookup km k₀ with
           | some orig => if !(deepEqual orig v₀) then alistStore ch k₀ v₀ else ch
           | none => ch) := rfl

theorem applyFold_chstep (k₀ : String) (v₀ : Value) (km : List (String × Option Value))
    (ch : Tree) (k : String) (hne : k ≠ k₀) :
    alistLookup
      (match alistLookup km k₀ with
       | some orig => if !(deepEqual orig v₀) then alistStore ch k₀ v₀ else ch
       | none => ch) k = alistLookup ch k := by
  rcases alistLookup km k₀ with _ | orig
  · rfl
  · show alistLookup (if (!deepEqual orig v₀) = true then alistStore ch k₀ v₀ else ch) k
      = alistLookup ch k
    by_cases hC : (!deepEqual orig v₀) = true
    · rw [if_pos hC]
      exact alistLookup_store_ne ch k₀ k v₀ (Ne.symm hne)
    · rw [if_neg hC]

theorem applyFold_notmem (flat : Tree) (km : List (String × Option Value)) (ch : Tree)
    (k : String) (h : k ∉ flat.map Prod.fst) :
    alistLookup (applyFold flat km ch).1 k = alistLookup km k ∧
    alistLookup (applyFold flat km ch).2 k = alistLookup ch k := by
  induction flat generalizing km ch with
  | nil => exact ⟨rfl, rfl⟩
  | cons p rest ih =>
      obtain ⟨k₀, v₀⟩ := p
      simp only [List.map_cons, List.mem_cons] at h
      push_neg at h
      obtain ⟨hne, hrest⟩ := h
      rw [applyFold_step]
      obtain ⟨ih1, ih2⟩ := ih _ _ hrest
      exact ⟨ih1.trans (alistLookup_store_ne km k₀ k _ (Ne.symm hne)),
        ih2.trans (applyFold_chstep k₀ v₀ km ch k hne)⟩

theorem applyFold_mem (flat : Tree) (km : List (String × Option Value)) (ch : Tree)
    (hnd : (flat.map Prod.fst).Nodup) (k : String) (v : Value) (hkv : (k, v) ∈ flat)
    (hch : alistLookup ch k = none) :
    alistLookup (applyFold flat km ch).1 k = some (some v) ∧
    alistLookup (applyFold flat km ch).2 k =
      (match alistLookup km k with
       | some orig => if !(deepEqual orig v) then some v else none
       | none => none) := by
  induction flat generalizing km ch with
  | nil => cases hkv
  | cons p rest ih =>
      obtain ⟨k₀, v₀⟩ := p
      simp only [List.map_cons, List.nodup_cons] at hnd
      rcases List.mem_cons.mp hkv with hh | hmem
      · injection hh with hk hv
        subst hk
        subst hv
        rw [applyFold_step]
        obtain ⟨h1, h2⟩ := applyFold_notmem rest (alistStore km k (some v))
          (match alistLookup km k with
           | some orig => if !(deepEqual orig v) then alistStore ch k v else ch
           | none => ch) k hnd.1
        refine ⟨h1.trans (alistLookup_store_self km k (some v)), h2.trans ?_⟩
        rcases hkm : alistLookup km k with _ | orig
        · exact hch
        · show alistLookup (if (!deepEqual orig v) = true then alistStore ch k v else ch) k
            = if (!deepEqual orig v) = true then some v else none
          by_cases hC : (!deepEqual orig v) = true
          · rw [if_pos hC, if_pos hC]
            exact alistLookup_store_self ch k v
          · rw [if_neg hC, if_neg hC]
            exact hch
      · have hkmem : k ∈ rest.map Prod.fst := List.mem_map.mpr ⟨(k, v), hmem, rfl⟩
        have hne : k ≠ k₀ := fun e => hnd.1 (e ▸ hkmem)
        rw [applyFold_step]
        have hch' := (applyFold_chstep k₀ v₀ km ch k hne).trans hch
        obtain ⟨h1, h2⟩ := ih _ _ hnd.2 hmem hch'
        exact ⟨h1, h2.trans (by rw [alistLookup_store_ne km k₀ k _ (Ne.symm hne)])⟩

theorem applyFold_nochange (flat : Tree) (km : List (String × Option Value)) (ch : Tree)
    (h : ∀ k v, (k, v) ∈ flat → alistLookup km k = some (some v)) :
    (applyFold flat km ch).2 = ch := by
  induction flat generalizing km ch with
  | nil => rfl
  | cons p rest ih =>
      obtain ⟨k₀, v₀⟩ := p
      have h₀ := h k₀ v₀ (List.mem_cons_self _ _)
      rw [applyFold_step, h₀]
      simp only [deepEqual_refl, Bool.not_true, if_false]
      refine ih _ _ ?_
      intro k v hkv
      by_cases hk : k = k₀
      · subst hk
        have hkv' := h k v (List.mem_cons_of_mem _ hkv)
        rw [alistLookup_store_self]
        exact h₀.symm.trans hkv'
      · rw [alistLookup_store_ne km k₀ k _ (Ne.symm hk)]
        exact h k v (List.mem_cons_of_mem _ hkv)

theorem applyFold_fresh (flat : Tree) (km : List (String × Option Value)) (ch : Tree)
    (hnd : (flat.map Prod.fst).Nodup)
    (h : ∀ k, k ∈ flat.map Prod.fst → alistLookup km k = none) :
    (applyFold flat km ch).2 = ch := by
  induction flat generalizing km ch with
  | nil => rfl
  | cons p rest ih =>
      obtain ⟨k₀, v₀⟩ := p
      simp only [List.map_cons, List.nodup_cons] at hnd
      have h₀ : alistLookup km k₀ = none := h k₀ (by simp)
      rw [applyFold_step, h₀]
      refine ih _ _ hnd.2 ?_
      intro k hk
      have hne : k ≠ k₀ := fun e => hnd.1 (e ▸ hk)
      rw [alistLookup_store_ne km k₀ k _ (Ne.symm hne)]
      exact h k (by simp [hk])

/-! ## Set: vivifying assignment and the top-level merge of the parent -/

theorem DeepSearchInMap_cons (m : Tree) (k : String) (rest : List String) :
    DeepSearchInMap m (k :: rest)
      = match alistLookup m k with
        | some (Value.vMap m2) => DeepSearchInMap m2 rest
        | _ => DeepSearchInMap [] rest := rfl

theorem deepSearchAssign_cons (m : Tree) (k : String) (rest : List String)
    (lastKey : String) (val : Value) :
    deepSearchAssign m (k :: rest) lastKey val
      = alistStore m k (Value.vMap (deepSearchAssign
          (match alistLookup m k with
           | some (Value.vMap m2) => m2
           | _ => []) rest lastKey val)) := rfl

/-- The vivifying walk of Set followed by the read-only walk of find land on
the same mapping: after deepSearchAssign, the mapping at the walked path is
the previous mapping there (empty when it was absent or not a mapping) with
the leaf assigned. -/
theorem deepSearchInMap_assign (front : List String) (m : Tree) (lastKey : String)
    (val : Value) :
    DeepSearchInMap (deepSearchAssign m front lastKey val) front
      = alistStore (DeepSearchInMap m front) lastKey val := by
  induction front generalizing m with
  | nil => rfl
  | cons k rest ih =>
      rw [deepSearchAssign_cons, DeepSearchInMap_cons,
        alistLookup_store_self m k, DeepSearchInMap_cons m k rest]
      rcases hm : alistLookup m k with _ | w
      · exact ih []
      · cases w <;> exact ih _

theorem wfTree_keys_nodup (m : Tree) (h : wfTree m = true) : (m.map Prod.fst).Nodup := by
  induction m with
  | nil => simp
  | cons p rest ih =>
      obtain ⟨k, v⟩ := p
      obtain ⟨hk, _, hr⟩ := (wfTree_cons_iff k v rest).mp h
      exact List.nodup_cons.mpr ⟨hk, ih hr⟩

theorem wfValue_of_lookup (m : Tree) (k : String) (w : Value) (hm : wfTree m = true)
    (h : alistLookup m k = some w) : wfValue w = true := by
  induction m with
  | nil => simp [alistLookup] at h
  | cons p rest ih =>
      obtain ⟨k', v'⟩ := p
      obtain ⟨_, hv, hr⟩ := (wfTree_cons_iff k' v' rest).mp hm
      by_cases hk : k' = k
      · subst hk
        simp only [alistLookup, if_pos rfl] at h
        cases h
        exact hv
      · simp only [alistLookup, if_neg hk] at h
        exact ih hr h

theorem wfTree_deepSearchInMap (front : List String) (m : Tree) (hm : wfTree m = true) :
    wfTree (DeepSearchInMap m front) = true := by
  induction front generalizing m with
  | nil => exact hm
  | cons k rest ih =>
      rw [DeepSearchInMap_cons]
      rcases hlk : alistLookup m k with _ | w
      · exact ih [] rfl
      · cases w with
        | vMap m2 => exact ih m2 (wfValue_of_lookup m k _ hm hlk)
        | vInt a => exact ih [] rfl
        | vStr a => exact ih [] rfl
        | vBool a => exact ih [] rfl
        | vSeq xs => exact ih [] rfl

/-- Pointwise characterization of the merge: for a source mapping with
pairwise distinct keys (any decoded Go map), every key of the merged tree
resolves to the merge of its old entry with the source entry, and keys
outside the source are untouched. -/
theorem alistLookup_mergeTree (src : Tree) (hnd : (src.map Prod.fst).Nodup)
    (t : Tree) (q : String) :
    alistLookup (mergeTree t src) q
      = match alistLookup src q with
        | some w => some (mergeValueO (alistLookup t q) w)
        | none => alistLookup t q := by
  induction src generalizing t with
  | nil => rfl
  | cons p rest ih =>
      obtain ⟨k₀, w₀⟩ := p
      simp only [List.map_cons, List.nodup_cons] at hnd
      rw [mergeTree_cons, ih hnd.2]
      by_cases hq : k₀ = q
      · subst hq
        have hnone : alistLookup rest k₀ = none := (alistLookup_none_iff rest k₀).mpr hnd.1
        have hsrc : alistLookup ((k₀, w₀) :: rest) k₀ = some w₀ := by simp [alistLookup]
        rw [hnone, hsrc]
        exact alistLookup_mergeStep_self t k₀ w₀
      · have hsrc : alistLookup ((k₀, w₀) :: rest) q = alistLookup rest q := by
          simp [alistLookup, hq]
        rw [hsrc, alistLookup_mergeStep_ne t k₀ q w₀ hq]

/-! ## The claims -/

/-- C1, counterexample: starting from the tree holding a to 1 with the
global-change callback 7 registered through OnChange, Set of a to 2 yields a
merge generation whose change set holds exactly the key a, yet no callback
at all is dispatched for it — in particular not the OnChange callback 7,
which the claim requires to be invoked exactly once. -/
theorem econf_c1_counterexample :
    confA7.onChanges = [7] ∧
    setOnce.changes = [("a", Value.vInt 2)] ∧
    setOnce.dispatched = [] ∧
    7 ∉ setOnce.dispatched := by
  refine ⟨rfl, rfl, rfl, ?_⟩
  have hd : setOnce.dispatched = [] := rfl
  rw [hd]
  exact List.not_mem_nil 7

/-- C1, amended: in the same scenario, the first Set of a to 2 produces a
change set holding exactly the key a and runs the notification phase, but
only prefix watchers are consulted (none is registered, so nothing is
dispatched; the OnChange list is never consulted by Set); the identical
second Set produces an empty change set and dispatches nothing. -/
theorem econf_c1_set_dispatch :
    confA7.onChanges = [7] ∧
    setOnce.changes = [("a", Value.vInt 2)] ∧
    setOnce.dispatched = notifyChanges confA7.watchers setOnce.changes ∧
    confA7.watchers = [] ∧
    setOnce.dispatched = [] ∧
    setTwice.changes = [] ∧
    setTwice.dispatched = [] :=
  ⟨rfl, rfl, rfl, rfl, rfl, rfl, rfl⟩

/-- C2, counterexample: on the empty configuration, Set of the dotted key
a.x to 1 does not change the tree the way deep-merging the single-key
nested mapping would: it additionally merges the leaf's parent mapping into
the top level, so the unrelated top-level key x appears. -/
theorem econf_c2_counterexample :
    (setKey New "a.x" (Value.vInt 1)).config.override
        = [("a", Value.vMap [("x", Value.vInt 1)]), ("x", Value.vInt 1)] ∧
    mergeTree New.override [("a", Value.vMap [("x", Value.vInt 1)])]
        = [("a", Value.vMap [("x", Value.vInt 1)])] ∧
    alistLookup (setKey New "a.x" (Value.vInt 1)).config.override "x" = some (Value.vInt 1) ∧
    (setKey New "a.x" (Value.vInt 1)).config.override
        ≠ mergeTree New.override [("a", Value.vMap [("x", Value.vInt 1)])] := by
  refine ⟨rfl, rfl, rfl, ?_⟩
  intro h
  have h1 : alistLookup (setKey New "a.x" (Value.vInt 1)).config.override "x"
      = alistLookup (mergeTree New.override [("a", Value.vMap [("x", Value.vInt 1)])]) "x" :=
    congrArg (fun t => alistLookup t "x") h
  have h2 : (some (Value.vInt 1) : Option Value) = none := h1
  exact Option.noConfusion h2

/-- C2, amended: for every configuration (with the pairwise-distinct keys
any decoded Go map has) and every dotted key splitting into the segments
front ++ [pn], Set first walks the tree along front, replacing an absent or
non-mapping intermediate with an empty mapping, and assigns the value at pn
in the innermost mapping — so after this phase the mapping at the walked
path is exactly its previous contents (empty when absent or not a mapping)
with pn assigned (conjuncts one and two); the final tree is that assigned
tree deep-merged at the TOP level with the leaf's parent mapping (conjunct
three), so every key of the parent — pn and any pre-existing siblings —
ends up a top-level key holding the merge of the previous top-level entry
with the parent's value (conjuncts four and five). For two or more
segments this introduces top-level keys beyond the first segment,
contradicting the original claim. -/
theorem econf_c2_set_merges_parent_into_top (c : Configuration) (key : String)
    (front : List String) (pn : String) (v : Value)
    (hwf : wfTree c.override = true)
    (hsplit : stringsSplit key c.keyDelim = front ++ [pn]) :
    DeepSearchInMap (deepSearchAssign c.override front pn v) front
        = alistStore (DeepSearchInMap c.override front) pn v ∧
    alistLookup (DeepSearchInMap (deepSearchAssign c.override front pn v) front) pn
        = some v ∧
    (setKey c key v).config.override
        = mergeTree (deepSearchAssign c.override front pn v)
            (alistStore (DeepSearchInMap c.override front) pn v) ∧
    (∀ q w, alistLookup (alistStore (DeepSearchInMap c.override front) pn v) q = some w →
        alistLookup (setKey c key v).config.override q
          = some (mergeValueO (alistLookup (deepSearchAssign c.override front pn v) q) w)) ∧
    alistLookup (setKey c key v).config.override pn
        = some (mergeValueO (alistLookup (deepSearchAssign c.override front pn v) pn) v) := by
  have hdrop : (stringsSplit key c.keyDelim).dropLast = front := by
    rw [hsplit]
    exact List.dropLast_concat ..
  have hlast : (stringsSplit key c.keyDelim).getLastD "" = pn := by
    rw [hsplit]
    exact List.getLastD_concat ..
  have hA := deepSearchInMap_assign front c.override pn v
  have hover : (setKey c key v).config.override
      = mergeTree (deepSearchAssign c.override front pn v)
          (alistStore (DeepSearchInMap c.override front) pn v) := by
    show mergeTree
        (deepSearchAssign c.override (stringsSplit key c.keyDelim).dropLast
          ((stringsSplit key c.keyDelim).getLastD "") v)
        (DeepSearchInMap
          (deepSearchAssign c.override (stringsSplit key c.keyDelim).dropLast
            ((stringsSplit key c.keyDelim).getLastD "") v)
          (stringsSplit key c.keyDelim).dropLast) = _
    rw [hdrop, hlast, hA]
  have hndP : ((alistStore (DeepSearchInMap c.override front) pn v).map Prod.fst).Nodup :=
    alistStore_keys_nodup _ _ _
      (wfTree_keys_nodup _ (wfTree_deepSearchInMap front c.override hwf))
  refine ⟨hA, ?_, hover, ?_, ?_⟩
  · rw [hA]
    exact alistLookup_store_self _ _ _
  · intro q w hq
    rw [hover, alistLookup_mergeTree _ hndP _ q, hq]
  · rw [hover, alistLookup_mergeTree _ hndP _ pn,
      alistLookup_store_self (DeepSearchInMap c.override front) pn v]

/-- C2, witness: the amended statement evaluated on the empty configuration
at the key a.x and value 5 — the final segment x appears as a top-level
key. -/
theorem econf_c2_witness :
    alistLookup (setKey New "a.x" (Value.vInt 5)).config.override "x"
      = some (Value.vInt 5) := by
  have h := econf_c2_set_merges_parent_into_top New "a.x" ["a"] "x" (Value.vInt 5)
    rfl (by decide)
  rw [h.2.2.2.2]
  rfl

/-- C4: a watcher's callbacks are dispatched exactly when some changed
dotted key begins with its registered prefix under the plain string-prefix
test; in particular a watcher on db fires both for a change of db.host and
for a change of the unrelated key dbx.flag. -/
theorem econf_c4_watch_matching :
    (∀ (watchers : List (String × List Nat)) (changes : Tree) (h : Nat),
        h ∈ notifyChanges watchers changes ↔
          ∃ wp, wp ∈ watchers.map Prod.fst ∧ (∃ kv ∈ changes, hasPrefix kv.1 wp = true) ∧
            h ∈ (alistLookup watchers wp).getD [])
  ∧ notifyChanges [("db", [1])] [("db.host", Value.vInt 2)] = [1]
  ∧ notifyChanges [("db", [1])] [("dbx.flag", Value.vInt 3)] = [1] := by
  refine ⟨?_, rfl, rfl⟩
  intro watchers changes h
  simp only [notifyChanges, changedWatchPlist, List.mem_flatten, List.mem_map,
    List.mem_filter, List.any_eq_true]
  constructor
  · rintro ⟨l, ⟨wp, ⟨hwp, hmatch⟩, rfl⟩, hl⟩
    exact ⟨wp, hwp, hmatch, hl⟩
  · rintro ⟨wp, hwp, hmatch, hl⟩
    exact ⟨_, ⟨wp, ⟨hwp, hmatch⟩, rfl⟩, hl⟩

/-- C5: find returns a cache hit unconditionally (even a cached nil); on a
miss it splits the key by the delimiter, walks the tree with all segments
but the last, reads the leaf, stores the result in the cache and returns
it; and once resolved, the cached result persists — a later find returns
the same value even if the tree is replaced arbitrarily, until a merge
recomputes the cache. -/
theorem econf_c5_find (c : Configuration) (key : String) :
    (∀ dd, alistLookup c.keyMap key = some dd → find c key = (c, dd))
  ∧ (alistLookup c.keyMap key = none →
      find c key =
        ({ c with keyMap := alistStore c.keyMap key (treeResolve c key) }, treeResolve c key))
  ∧ (∀ t' : Tree,
      find { (find c key).1 with override := t' } key
        = ({ (find c key).1 with override := t' }, (find c key).2)) := by
  refine ⟨?_, ?_, ?_⟩
  · intro dd h
    simp [find, h]
  · intro h
    simp [find, treeResolve, h]
  · intro t'
    rcases hcache : alistLookup c.keyMap key with _ | dd
    · simp [find, hcache, alistLookup_store_self]
    · simp [find, hcache]

/-- C5, witness: on a configuration whose cache negatively caches the key k
(the tree nonetheless holds k), find keeps returning the cached nil. -/
theorem econf_c5_witness :
    find { New with override := [("k", Value.vInt 9)], keyMap := [("k", none)] } "k"
      = ({ New with override := [("k", Value.vInt 9)], keyMap := [("k", none)] }, none) :=
  (econf_c5_find { New with override := [("k", Value.vInt 9)], keyMap := [("k", none)] } "k").1
    none rfl

/-- C7: loading the same well-formed mapping twice produces an empty
change set on the second merge, so nothing is dispatched for it. -/
theorem econf_c7_idempotent_merge (c : Configuration) (m : Tree) (hm : wfTree m = true) :
    (apply (apply c m).config m).changes = [] ∧
    (apply (apply c m).config m).dispatched = [] := by
  have hmerge2 : mergeTree (apply c m).config.override m = (apply c m).config.override := by
    rw [apply_override]
    exact mergeTree_idem m hm c.override
  have hflat : traverse (mergeTree (apply c m).config.override m) (apply c m).config.keyDelim
      = traverse (mergeTree c.override m) c.keyDelim := by
    rw [hmerge2]
    rfl
  have hnd := traverse_keys_nodup (mergeTree c.override m) c.keyDelim
  have hchanges : (apply (apply c m).config m).changes = [] := by
    rw [apply_changes_eq, hflat]
    refine applyFold_nochange _ _ _ ?_
    intro k v hkv
    exact (applyFold_mem _ c.keyMap [] hnd k v hkv rfl).1
  refine ⟨hchanges, ?_⟩
  rw [apply_dispatched_eq, hchanges]
  simp

/-- C7, witness: the idempotence statement evaluated at the empty
configuration and the mapping b to 3. -/
theorem econf_c7_witness :
    (apply (apply New [("b", Value.vInt 3)]).config [("b", Value.vInt 3)]).changes = [] :=
  (econf_c7_idempotent_merge New [("b", Value.vInt 3)] rfl).1

/-- C6: after a merge, for every flattened (key, value) pair the cache
entry is unconditionally overwritten with the new value, and the key is in
the change set exactly when the cache held a previous entry not deeply
equal to the new value; a first load into an empty cache yields an empty
change set and dispatches nothing. -/
theorem econf_c6_change_detection (c : Configuration) (conf : Tree) :
    (∀ k v, (k, v) ∈ traverse (mergeTree c.override conf) c.keyDelim →
        alistLookup (apply c conf).config.keyMap k = some (some v) ∧
          ((alistLookup (apply c conf).changes k).isSome ↔
            ∃ orig, alistLookup c.keyMap k = some orig ∧ deepEqual orig v = false))
  ∧ (c.keyMap = [] → (apply c conf).changes = [] ∧ (apply c conf).dispatched = []) := by
  constructor
  · intro k v hmem
    have hnd := traverse_keys_nodup (mergeTree c.override conf) c.keyDelim
    obtain ⟨h1, h2⟩ := applyFold_mem _ c.keyMap [] hnd k v hmem rfl
    refine ⟨h1, ?_⟩
    rw [apply_changes_eq, h2]
    rcases hkm : alistLookup c.keyMap k with _ | orig
    · simp
    · show (if (!deepEqual orig v) = true then some v else none).isSome ↔ _
      cases hde : deepEqual orig v <;> simp [hde]
  · intro h0
    have hchanges : (apply c conf).changes = [] := by
      rw [apply_changes_eq]
      exact applyFold_fresh _ _ _ (traverse_keys_nodup _ _) (fun k _ => by rw [h0]; rfl)
    refine ⟨hchanges, ?_⟩
    rw [apply_dispatched_eq, hchanges]
    simp

/-- C8: when the decoder fails on the payload, Load returns that decode
error, no merge happens, nothing is dispatched, and the configuration is
the previous one with only the raw payload replaced — in particular the
tree and the cache are exactly what they were before the call. -/
theorem econf_c8_failed_load (c : Configuration) (content : List Nat)
    (unmarshal : List Nat → Except String Tree) (e : String)
    (h : unmarshal content = .error e) :
    Load c content unmarshal
      = ({ config := { c with rawConfig := content }, changes := [], dispatched := [] }, some e)
    ∧ (Load c content unmarshal).1.config.override = c.override
    ∧ (Load c content unmarshal).1.config.keyMap = c.keyMap := by
  have h1 : Load c content unmarshal
      = ({ config := { c with rawConfig := content }, changes := [], dispatched := [] },
          some e) := by
    simp [Load, h]
  exact ⟨h1, by rw [h1], by rw [h1]⟩

/-- C8, witness: a failing decoder on the empty configuration. -/
theorem econf_c8_witness :
    (Load New [3, 7] (fun _ => Except.error "bad")).1.config.override = New.override ∧
    (Load New [3, 7] (fun _ => Except.error "bad")).2 = some "bad" := by
  have h := econf_c8_failed_load New [3, 7] (fun _ => Except.error "bad") "bad" rfl
  exact ⟨h.2.1, by rw [h.1]⟩

/-- C9, counterexample: the empty key is absent from the cache and from the
tree, yet UnmarshalKey on the empty key takes the whole-tree branch: it
returns no invalid-key error and the decoder rewrites the target (5 becomes
6 here), contradicting the claim for that key. -/
theorem econf_c9_counterexample :
    alistLookup c9conf.keyMap "" = none ∧
    treeResolve c9conf "" = none ∧
    UnmarshalKey c9conf "" (5 : Int) c9decodeValue c9decodeTree = (c9conf, 6, none) :=
  ⟨rfl, rfl, rfl⟩

/-- C9, amended: for every nonempty key absent from the cache and from the
tree, GetInt returns 0, and UnmarshalKey returns the invalid-key error
wrapping ErrInvalidKey with the target left untouched (only the
configuration's cache picks up the negative entry through Get). -/
theorem econf_c9_missing_key {T : Type} (c : Configuration) (key : String) (rawVal : T)
    (decodeValue : Value → T → T × Option String)
    (decodeTree : Tree → T → T × Option String)
    (hkey : key ≠ "")
    (hcache : alistLookup c.keyMap key = none)
    (htree : treeResolve c key = none) :
    (GetInt c key).2 = 0 ∧
    UnmarshalKey c key rawVal decodeValue decodeTree
      = ((find c key).1, rawVal, some (UnmarshalErr.invalidKey key)) := by
  have hmiss : find c key
      = ({ c with keyMap := alistStore c.keyMap key (treeResolve c key) },
          treeResolve c key) := by
    simp [find, treeResolve, hcache]
  have hfind : (find c key).2 = none := by rw [hmiss]; exact htree
  constructor
  · show castToInt (find c key).2 = 0
    rw [hfind]
    rfl
  · rw [UnmarshalKey, if_neg hkey]
    show (match (Get c key).2 with
          | none => ((Get c key).1, rawVal, some (UnmarshalErr.invalidKey key))
          | some v =>
              match decodeValue v rawVal with
              | (t', none) => ((Get c key).1, t', none)
              | (t', some m) => ((Get c key).1, t', some (.decodeErr m))) = _
    rw [show (Get c key).2 = none from hfind]
    rfl

/-- C9, witness: the amended statement evaluated at the missing key on the
empty configuration. -/
theorem econf_c9_witness :
    (GetInt New "missing").2 = 0 ∧
    UnmarshalKey New "missing" (5 : Int) c9decodeValue c9decodeTree
      = ((find New "missing").1, 5, some (UnmarshalErr.invalidKey "missing")) :=
  econf_c9_missing_key New "missing" 5 c9decodeValue c9decodeTree (by decide) rfl rfl

/-- C10: Load stores the raw payload before decoding, so after a failed
decode the observable raw payload is the failed payload, even though the
tree is retained. -/
theorem econf_c10_raw_overwrite (c : Configuration) (content : List Nat)
    (unmarshal : List Nat → Except String Tree) (e : String)
    (h : unmarshal content = .error e) :
    raw (Load c content unmarshal).1.config = content ∧
    (Load c content unmarshal).1.config.override = c.override := by
  simp [Load, h, raw]

/-- C10, witness: the previously loaded payload is replaced by the failed
one. -/
theorem econf_c10_witness :
    raw (Load { New with rawConfig := [1] } [9] (fun _ => Except.error "no")).1.config = [9] :=
  (econf_c10_raw_overwrite { New with rawConfig := [1] } [9] (fun _ => Except.error "no")
    "no" rfl).1

end Econf
